import Mathlib

/-!
Shallow embedding of the `graph` Go package (nodes, edges, directions,
traversal, paths, bridges, cliques) and proofs about it.

Modelling conventions:
  * Nodes live in an arena (`Graph.nodes : List Node`); a `NodeId` is the
    index of a node in the arena.  Go compares nodes by pointer identity,
    which the arena models as equality of indices.  An id that is out of
    range denotes no node; `edgesOf` returns `[]` there, which is never
    reached for states built through the API (every Go edge stores a
    non-nil pointer to an existing node).
  * `EdgeDirection` is `Int`, exactly as Go's `type EdgeDirection int`,
    with the five named constants `0..4`; `Match` and
    `AddEdgeWithDirection` must behave correctly on out-of-range values,
    so the type is not a closed enumeration.
  * Mutation (`AddEdge`, traversal closures over `bridges`/`path`
    variables) is modelled by explicit state passing: graph mutators are
    `Graph → Graph`, a traversal callback is `σ → NodeId → σ × Bool`
    threading the closure state `σ`.
  * `visitWithTerminator`'s recursion is bounded by `Graph.fuel`, an upper
    bound on the depth of any depth-first descent: each nested call marks
    a previously unvisited id, and at most `1 + #nodes + #edges` distinct
    ids are ever reachable.
-/

namespace GoGraph

/-- Identity of a node: its index in the arena. -/
abbrev NodeId := Nat

/-- Go: `type EdgeDirection int`. -/
abbrev EdgeDirection := Int

/-- Go: `Unknown EdgeDirection = 0`. -/
def Unknown : EdgeDirection := 0

/-- Go: `None EdgeDirection = 1` (named `NoneDir` because `None` reads badly next to `Option`). -/
def NoneDir : EdgeDirection := 1

/-- Go: `In EdgeDirection = 2`. -/
def In : EdgeDirection := 2

/-- Go: `Out EdgeDirection = 3`. -/
def Out : EdgeDirection := 3

/-- Go: `Both EdgeDirection = 4`. -/
def Both : EdgeDirection := 4

/-- Go: `EdgeDirection.AnyOf` — membership test over the listed directions. -/
def AnyOf (d : EdgeDirection) (directions : List EdgeDirection) : Bool :=
  directions.any (fun direction => direction == d)

/-- Go: `EdgeDirection.Match` from `edges.go` / `graph.go` (both copies are identical).
`d` is the stored direction, `direction` the queried one. -/
def Match (d direction : EdgeDirection) : Bool :=
  if direction = NoneDir then d == NoneDir
  else if direction = In then AnyOf d [In, Both]
  else if direction = Out then AnyOf d [Out, Both]
  else if direction = Both then AnyOf d [In, Out, Both]
  else d == Unknown || decide (4 < d)

/-- Go: `Edge` — a reference to a target node plus a direction tag.
(The optional name/attributes are never read by any claimed operation.) -/
structure Edge where
  target : NodeId
  direction : EdgeDirection
deriving Repr, DecidableEq, Inhabited

/-- Go: `Node` — label and ordered adjacency list. -/
structure Node where
  name : String
  edges : List Edge
deriving Repr, DecidableEq, Inhabited

/-- The arena of nodes; Go pointers become indices into `nodes`. -/
structure Graph where
  nodes : List Node
deriving Repr, DecidableEq

/-- Adjacency list of the node with id `i` (empty for an out-of-range id). -/
def Graph.edgesOf (g : Graph) (i : NodeId) : List Edge :=
  match g.nodes[i]? with
  | some nd => nd.edges
  | none => []

/-- Label of the node with id `i`. -/
def Graph.nameOf (g : Graph) (i : NodeId) : String :=
  match g.nodes[i]? with
  | some nd => nd.name
  | none => ""

/-- Builds an arena of fresh, edge-free nodes with the given labels. -/
def mkGraph (names : List String) : Graph :=
  ⟨names.map (fun nm => ⟨nm, []⟩)⟩

/-- Replace the node at index `i` by `f` of it (identity elsewhere). -/
def modifyNode : List Node → Nat → (Node → Node) → List Node
  | [], _, _ => []
  | nd :: rest, 0, f => f nd :: rest
  | nd :: rest, i+1, f => nd :: modifyNode rest i f

/-- Go: `n.Edges = append(n.Edges, e)` for the node with id `i`. -/
def Graph.appendEdgeAt (g : Graph) (i : NodeId) (e : Edge) : Graph :=
  ⟨modifyNode g.nodes i (fun nd => { nd with edges := nd.edges ++ [e] })⟩

/-- Go: `Node.AddEdge` — append an Out record on `n`, then an In record on `e`. -/
def AddEdge (g : Graph) (n e : NodeId) : Graph :=
  (g.appendEdgeAt n ⟨e, Out⟩).appendEdgeAt e ⟨n, In⟩

/-- Go: `Node.AddEdgeWithDirection` — the `switch direction` statement;
a direction outside the five named cases matches no case. -/
def AddEdgeWithDirection (g : Graph) (n e : NodeId) (direction : EdgeDirection) : Graph :=
  if direction = NoneDir ∨ direction = Unknown ∨ direction = Both then
    (g.appendEdgeAt n ⟨e, direction⟩).appendEdgeAt e ⟨n, direction⟩
  else if direction = Out then
    (g.appendEdgeAt n ⟨e, Out⟩).appendEdgeAt e ⟨n, In⟩
  else if direction = In then
    (g.appendEdgeAt n ⟨e, In⟩).appendEdgeAt e ⟨n, Out⟩
  else g

/-- Outcome of a Go call observed by its caller: a normal value, a
returned `error`, or a runtime panic (fatal failure). -/
inductive GoVal (α : Type) where
  | ok : α → GoVal α
  | err : String → GoVal α
  | panicked : GoVal α
deriving Repr, DecidableEq

/-- Go: `Nodes.AtIndex`.  The source only guards `len(nodes) <= i`; the
subsequent `nodes[i]` is a Go indexing expression, whose runtime bounds
check panics when `i < 0` — modelled by the `panicked` branch. -/
def AtIndex (nodes : List Node) (i : Int) : GoVal Node :=
  if (nodes.length : Int) ≤ i then
    .err ("graph invalid index " ++ toString i ++ " for nodes of size " ++
      toString nodes.length)
  else if i < 0 then .panicked
  else .ok (nodes.getD i.toNat default)

/-- Edge filter of `visitWithTerminator`'s loop body: Go's
`switch direction { case Unknown, None, Both: …; case In, Out: if edge.Direction == direction || edge.Direction == Both { … } }`.
A direction outside the five named values matches no case, so no edge is followed. -/
def followEdge (direction : EdgeDirection) (e : Edge) : Bool :=
  if direction == Unknown || direction == NoneDir || direction == Both then true
  else if direction == In || direction == Out then
    e.direction == direction || e.direction == Both
  else false

/-- The `for _, edge := range root.Edges` loop of `visitWithTerminator`:
runs `visit` (the recursive call at the next depth) on each followed edge
target, threading the shared visited record and closure state. -/
def visitEdgesLoop {σ : Type _} (direction : EdgeDirection)
    (visit : NodeId → List NodeId → σ → List NodeId × σ) :
    List Edge → List NodeId → σ → List NodeId × σ
  | [], record, s => (record, s)
  | e :: rest, record, s =>
    let acc := if followEdge direction e then visit e.target record s else (record, s)
    visitEdgesLoop direction visit rest acc.1 acc.2

/-- Go: `visitWithTerminator` — depth-first walk with a visited record and
an early-terminating callback.  `record` is the shared visited `NodeSet`
(a list of ids; Go's map is identity-keyed and our ids are identities),
`σ` the state of the Go closure `fn`, and `fuel` bounds the recursion
depth (see the module comment; `Graph.fuel` always suffices). -/
def visitWithTerminator {σ : Type _} (g : Graph) (direction : EdgeDirection)
    (fn : σ → NodeId → σ × Bool) :
    Nat → NodeId → List NodeId → σ → List NodeId × σ
  | 0, _, record, s => (record, s)
  | fuel+1, root, record, s =>
    if record.contains root then (record, s)
    else
      let record1 := root :: record
      let r := fn s root
      if r.2 then
        visitEdgesLoop direction
          (fun t rec2 s2 => visitWithTerminator g direction fn fuel t rec2 s2)
          (g.edgesOf root) record1 r.1
      else (record1, r.1)

/-- Depth bound for `visitWithTerminator`: every nested call marks a fresh
id, and at most `#nodes + #edges + 1` distinct ids are reachable. -/
def Graph.fuel (g : Graph) : Nat :=
  g.nodes.length + (g.nodes.map (fun nd => nd.edges.length)).sum + 1

/-- Go: `Node.Visit` — Out-direction walk with an always-continue callback. -/
def Visit {σ : Type _} (g : Graph) (root : NodeId) (fn : σ → NodeId → σ) (s : σ) : σ :=
  (visitWithTerminator g Out (fun s n => (fn s n, true)) g.fuel root [] s).2

/-- Go: `Node.VisitAll` — bi-directional walk with an always-continue callback. -/
def VisitAll {σ : Type _} (g : Graph) (root : NodeId) (fn : σ → NodeId → σ) (s : σ) : σ :=
  (visitWithTerminator g Both (fun s n => (fn s n, true)) g.fuel root [] s).2

/-- The directions accepted by `PathTo`'s final-hop scan: Go's
`switch edge.Direction { case Out, Both, None, Unknown: … }` — everything
among the named values except `In`. -/
def isTerminalHopDir (d : EdgeDirection) : Bool :=
  d == Out || d == Both || d == NoneDir || d == Unknown

/-- The closure passed by Go's `Node.PathTo` to `visitWithTerminator`:
state is the captured `(hasPath, path)` pair; at each visited node the
node is appended, then the node's edges are scanned for a direct edge to
`endN` whose direction is not `In`. -/
def fnPathTo (g : Graph) (endN : NodeId) :
    (Bool × List NodeId) → NodeId → ((Bool × List NodeId) × Bool) :=
  fun st n =>
    if st.1 then (st, false)
    else
      let path := st.2 ++ [n]
      match (g.edgesOf n).find? (fun e => isTerminalHopDir e.direction && e.target == endN) with
      | some e => ((true, path ++ [e.target]), false)
      | none => ((false, path), true)

/-- Go: `Node.PathTo` — `none` models the `nil` Path. -/
def PathTo (g : Graph) (n endN : NodeId) : Option (List NodeId) :=
  let r := visitWithTerminator g Out (fnPathTo g endN) g.fuel n [] (false, [])
  if r.2.1 then some r.2.2 else none

/-- Go: `Node.HasPath` — `n.PathTo(end) != nil`. -/
def HasPath (g : Graph) (n endN : NodeId) : Bool :=
  (PathTo g n endN).isSome

/-- Go: `Path.ContainsNode` — linear scan by node identity (a `nil` path
scans zero elements, hence the `getD []` at the call site). -/
def ContainsNode (path : List NodeId) (n : NodeId) : Bool :=
  path.any (fun pathNode => pathNode == n)

/-- Go: `Node.PathToWithout` — `!path.ContainsNode(without)` where `path`
may be `nil`. -/
def PathToWithout (g : Graph) (n endN without : NodeId) : Bool :=
  !(ContainsNode ((PathTo g n endN).getD []) without)

/-- ASCII fragment of Go's `unicode.IsSpace`, the character class trimmed
by `strings.TrimSpace`.  (Node labels in this development are ASCII, where
the two classes agree.) -/
def isSpaceGo (c : Char) : Bool :=
  c == ' ' || c == '\t' || c == '\n' || c == '\x0b' || c == '\x0c' || c == '\r'

/-- Go: `strings.TrimPrefix` on rune lists — drop `pre` if it is a prefix. -/
def trimPrefixChars (s pre : List Char) : List Char :=
  if pre.isPrefixOf s then s.drop pre.length else s

/-- Go: `strings.TrimSpace` on rune lists — drop leading and trailing space. -/
def trimSpaceChars (s : List Char) : List Char :=
  ((s.dropWhile isSpaceGo).reverse.dropWhile isSpaceGo).reverse

/-- Go: `Path.String` — the builder writes `"→ %s "` per node, then the
result is `TrimSpace(TrimPrefix(s, "→ "))`. -/
def render (g : Graph) (path : List NodeId) : String :=
  let s := path.foldl (fun acc i => acc ++ "→ " ++ g.nameOf i ++ " ") ""
  ⟨trimSpaceChars (trimPrefixChars s.data "→ ".data)⟩

/-- Go: `Path.Identical` — label-rendering equality. -/
def Identical (g : Graph) (p q : List NodeId) : Bool :=
  render g p == render g q

/-- Go: `Paths.ContainsPath`. -/
def ContainsPath (g : Graph) (paths : List (List NodeId)) (p : List NodeId) : Bool :=
  paths.any (fun path => Identical g path p)

/-- The `addUniqBridge` closure of Go's `FindBridges`. -/
def addUniqBridge (g : Graph) (bridges : List (List NodeId)) (p : List NodeId) :
    List (List NodeId) :=
  if p.length == 0 then bridges
  else if ContainsPath g bridges p then bridges
  else bridges ++ [p]

/-- The per-node body of `FindBridges`' `VisitAll` callback: the
`for _, edge := range n.Edges` loop (its commented-out `Both` handling in
the source is dead code and not modelled). -/
def fnBridges (g : Graph) (bridges : List (List NodeId)) (n : NodeId) : List (List NodeId) :=
  (g.edgesOf n).foldl (fun bridges edge =>
    let tEdges := g.edgesOf edge.target
    if tEdges.length == 0 then bridges
    else if tEdges.length == 1 then
      let path := (PathTo g edge.target (tEdges.headD default).target).getD []
      if 0 < path.length then addUniqBridge g bridges path else bridges
    else
      tEdges.foldl (fun bridges ene =>
        if !(HasPath g ene.target edge.target) then
          let path := (PathTo g edge.target ene.target).getD []
          if 0 < path.length then addUniqBridge g bridges path else bridges
        else bridges) bridges) bridges

/-- Go: `FindBridges` — `VisitAll` over the whole graph accumulating the
`bridges` slice. -/
def FindBridges (g : Graph) (root : NodeId) : List (List NodeId) :=
  VisitAll g root (fnBridges g) []

/-- Go: `NodeSet.Add` — adding to an identity-keyed map; modelled as an
insertion-ordered duplicate-free list. -/
def NodeSet.Add (ns : List NodeId) (n : NodeId) : List NodeId :=
  if ns.contains n then ns else ns ++ [n]

/-- Go: `NodeSet.SameAs` — same size and every member shared. -/
def SameAs (ns other : List NodeId) : Bool :=
  ns.length == other.length && ns.all (fun n => other.contains n)

/-- Go: `Edges.ButNotWith`. -/
def ButNotWith (es : List Edge) (n : NodeId) : List Edge :=
  es.filter (fun e => e.target != n)

/-- Go: `Edges.AdjacentTo` — every given node must be among the edge
targets; Go counts the distinct given nodes found (a `NodeSet`). -/
def AdjacentTo (es : List Edge) (nodes : List NodeId) : Bool :=
  let nodeSet := es.foldl (fun acc e =>
    nodes.foldl (fun acc2 node =>
      if e.target == node then NodeSet.Add acc2 node else acc2) acc) []
  nodeSet.length == nodes.length

/-- Go: `Cliques.ContainsClique`. -/
def ContainsClique (cliques : List (List NodeId)) (c : List NodeId) : Bool :=
  cliques.any (fun clique => SameAs clique c)

/-- The per-node body of `FindCliques`' `VisitAll` callback: grow a
candidate set from `{n}` over pairs of distinct edges. -/
def fnCliques (g : Graph) (minSize : Int) (cliques : List (List NodeId)) (n : NodeId) :
    List (List NodeId) :=
  let es := g.edgesOf n
  if es.length == 0 then cliques
  else
    let clique := NodeSet.Add [] n
    let clique := es.foldl (fun cl edge =>
      (ButNotWith es edge.target).foldl (fun cl2 otherEdge =>
        if AdjacentTo (g.edgesOf otherEdge.target) cl2 then NodeSet.Add cl2 otherEdge.target
        else cl2) cl) clique
    if minSize ≤ (clique.length : Int) ∧ ¬(ContainsClique cliques clique = true) then
      cliques ++ [clique]
    else cliques

/-- Go: `FindCliques`. -/
def FindCliques (g : Graph) (root : NodeId) (minSize : Int) : List (List NodeId) :=
  VisitAll g root (fnCliques g minSize) []

/-- Instrumented callback: `logFn fn` behaves as `fn` on the `σ` component
and additionally appends every node it is invoked on to an invocation log.
This observes (without influencing) how often the engine runs a callback. -/
def logFn {σ : Type _} (fn : σ → NodeId → σ × Bool) :
    (List NodeId × σ) → NodeId → ((List NodeId × σ) × Bool) :=
  fun st n =>
    let r := fn st.2 n
    ((st.1 ++ [n], r.1), r.2)

/-- One step of Out-direction reachability (spec §4.4): an edge of `u`
tagged `Out` or `Both` targeting `v` — exactly the edges the Out-direction
traversal follows. -/
def OutStep (g : Graph) (u v : NodeId) : Prop :=
  ∃ e ∈ g.edgesOf u, e.target = v ∧ (e.direction = Out ∨ e.direction = Both)

/-- Out-direction reachability: the reflexive-transitive closure of `OutStep`. -/
def OutReach (g : Graph) : NodeId → NodeId → Prop :=
  Relation.ReflTransGen (OutStep g)

/-- An Out-reachable path from `s` to `e` with at least one edge, the
spec's "Out-reachable path from start to end exists". -/
def OutPathEx (g : Graph) (s e : NodeId) : Prop :=
  ∃ u, OutReach g s u ∧ OutStep g u e

/-- A final hop as `PathTo` accepts it: an edge to `endN` whose direction
is any named value other than `In`. -/
def TerminalHop (g : Graph) (u endN : NodeId) : Prop :=
  ∃ e ∈ g.edgesOf u, e.target = endN ∧ isTerminalHopDir e.direction = true

/-- The dangling-edge graph of spec section 8: `a.AddEdge(b)`, ids a=0, b=1. -/
def gC1 : Graph := AddEdge (mkGraph ["a", "b"]) 0 1

/-- Two nodes joined only by a None-tagged (undirected) edge:
`n.AddEdgeWithDirection(e, None)`, ids n=0, e=1. -/
def gC2 : Graph := AddEdgeWithDirection (mkGraph ["n", "e"]) 0 1 NoneDir

/-- Two edge-free nodes (no path from 0 to 1 at all). -/
def gNoEdges : Graph := mkGraph ["a", "b"]

/-- Fan-out graph `a.AddEdge(b); a.AddEdge(c)`, ids a=0, b=1, c=2. -/
def gC3 : Graph := AddEdge (AddEdge (mkGraph ["a", "b", "c"]) 0 1) 0 2

/-- A callback that returns the stop value exactly at node b (id 1). -/
def stopAtB : Unit → NodeId → Unit × Bool := fun u n => (u, n != 1)

/-- The clique graph of spec section 8: a→b→c→d→a plus c→e, e→d,
ids a=0, b=1, c=2, d=3, e=4 (built by `AddEdge` in that order). -/
def gC6 : Graph :=
  AddEdge (AddEdge (AddEdge (AddEdge (AddEdge (AddEdge (mkGraph ["a", "b", "c", "d", "e"])
    0 1) 1 2) 2 3) 3 0) 2 4) 4 3

/-! Unfolding lemmas for the traversal engine. -/

lemma visitWT_zero {σ : Type _} (g : Graph) (dir : EdgeDirection) (fn : σ → NodeId → σ × Bool)
    (root : NodeId) (record : List NodeId) (s : σ) :
    visitWithTerminator g dir fn 0 root record s = (record, s) := rfl

lemma visitWT_succ_visited {σ : Type _} {g : Graph} {dir : EdgeDirection}
    {fn : σ → NodeId → σ × Bool} {fuel : Nat} {root : NodeId} {record : List NodeId} {s : σ}
    (h : root ∈ record) :
    visitWithTerminator g dir fn (fuel+1) root record s = (record, s) := by
  simp [visitWithTerminator, h]

lemma visitWT_succ_halt {σ : Type _} {g : Graph} {dir : EdgeDirection}
    {fn : σ → NodeId → σ × Bool} {fuel : Nat} {root : NodeId} {record : List NodeId} {s s' : σ}
    (h : root ∉ record) (hfn : fn s root = (s', false)) :
    visitWithTerminator g dir fn (fuel+1) root record s = (root :: record, s') := by
  simp [visitWithTerminator, h, hfn]

lemma visitWT_succ_go {σ : Type _} {g : Graph} {dir : EdgeDirection}
    {fn : σ → NodeId → σ × Bool} {fuel : Nat} {root : NodeId} {record : List NodeId} {s s' : σ}
    (h : root ∉ record) (hfn : fn s root = (s', true)) :
    visitWithTerminator g dir fn (fuel+1) root record s =
      visitEdgesLoop dir (fun t rec2 s2 => visitWithTerminator g dir fn fuel t rec2 s2)
        (g.edgesOf root) (root :: record) s' := by
  simp [visitWithTerminator, h, hfn]

lemma loop_nil {σ : Type _} {dir : EdgeDirection}
    {visit : NodeId → List NodeId → σ → List NodeId × σ} {record : List NodeId} {s : σ} :
    visitEdgesLoop dir visit [] record s = (record, s) := rfl

lemma loop_cons_follow {σ : Type _} {dir : EdgeDirection}
    {visit : NodeId → List NodeId → σ → List NodeId × σ} {e : Edge} {rest : List Edge}
    {record : List NodeId} {s : σ} (h : followEdge dir e = true) :
    visitEdgesLoop dir visit (e :: rest) record s =
      visitEdgesLoop dir visit rest (visit e.target record s).1 (visit e.target record s).2 := by
  simp [visitEdgesLoop, h]

lemma loop_cons_skip {σ : Type _} {dir : EdgeDirection}
    {visit : NodeId → List NodeId → σ → List NodeId × σ} {e : Edge} {rest : List Edge}
    {record : List NodeId} {s : σ} (h : followEdge dir e = false) :
    visitEdgesLoop dir visit (e :: rest) record s = visitEdgesLoop dir visit rest record s := by
  simp [visitEdgesLoop, h]

/-- C1: for the two-node graph built by `AddEdge(a, b)` (`b` has no
further edges), `FindBridges(a)` returns exactly one bridge path — the
path `[a, b]` — and that path renders as the string "a → b". -/
theorem C1_dangling_edge_bridge :
    FindBridges gC1 0 = [[0, 1]] ∧ render gC1 [0, 1] = "a → b" := by
  constructor
  · decide
  · decide

/-- C6: for the graph a→b→c→d→a plus c→e, e→d, `FindCliques(a, 3)`
returns exactly one clique, whose node set is {c, e, d} = {2, 4, 3},
compared order-independently (`SameAs` is Go's identity-set equality). -/
theorem C6_clique :
    (FindCliques gC6 0 3).length = 1 ∧
    SameAs ((FindCliques gC6 0 3).headD []) [2, 4, 3] = true := by
  constructor
  · decide
  · decide

/-- C7 counterexample: with stored direction 5 (out of range) and queried
direction Unknown, `Match` returns true although the stored direction is
not Unknown — refuting "true only if stored == Unknown". -/
theorem C7_counterexample :
    Match 5 Unknown = true ∧ (5 : EdgeDirection) ≠ Unknown := by
  constructor
  · decide
  · decide

/-- C7 (amended): when the queried direction is Unknown or any value
outside {None, In, Out, Both}, `Match(d, q)` returns true exactly when
the stored value is Unknown or greater than Both (4); stored values below
Unknown never match, and queried None still matches only stored None. -/
theorem C7_match_default (d q : EdgeDirection)
    (h1 : q ≠ NoneDir) (h2 : q ≠ In) (h3 : q ≠ Out) (h4 : q ≠ Both) :
    Match d q = true ↔ (d = Unknown ∨ 4 < d) := by
  simp [Match, h1, h2, h3, h4]

/-- C7 witness: the amended equivalence instantiated at stored 5, queried Unknown. -/
theorem C7_witness :
    Match 5 Unknown = true ↔ ((5 : EdgeDirection) = Unknown ∨ 4 < (5 : EdgeDirection)) :=
  C7_match_default 5 Unknown (by decide) (by decide) (by decide) (by decide)

/-- C8: `Nodes.AtIndex` only guards the upper bound (`len(nodes) <= i`);
for a negative index the Go indexing expression `nodes[i]` panics at
runtime instead of returning the index-out-of-range error — evaluating
the model at the failing input `i = -1` yields the fatal outcome. -/
theorem C8_atIndex_negative_panics :
    AtIndex [⟨"a", []⟩] (-1) = GoVal.panicked := by
  decide

/-- C9: `AddEdgeWithDirection` with a direction outside the five named
values matches no case of the switch statement, so the graph — both
nodes' adjacency lists and everything else — is unchanged. -/
theorem C9_addEdgeWithDirection_noop (g : Graph) (n e : NodeId) (d : EdgeDirection)
    (h0 : d ≠ Unknown) (h1 : d ≠ NoneDir) (h2 : d ≠ In) (h3 : d ≠ Out) (h4 : d ≠ Both) :
    AddEdgeWithDirection g n e d = g := by
  simp [AddEdgeWithDirection, h0, h1, h2, h3, h4]

/-- C9 witness: direction 100 on a concrete two-node graph is a no-op. -/
theorem C9_witness :
    AddEdgeWithDirection (mkGraph ["a", "b"]) 0 1 100 = mkGraph ["a", "b"] :=
  C9_addEdgeWithDirection_noop (mkGraph ["a", "b"]) 0 1 100
    (by decide) (by decide) (by decide) (by decide) (by decide)

/-- C10: whenever `PathTo(n, end)` is absent (`nil`), `PathToWithout(n,
end, without)` returns true: the `nil` path contains no node, so the
negated containment check succeeds vacuously. -/
theorem C10_pathToWithout_vacuous (g : Graph) (n endN w : NodeId)
    (h : PathTo g n endN = none) : PathToWithout g n endN w = true := by
  simp [PathToWithout, h, ContainsNode]

/-- C10 witness: two edge-free nodes — no path from 0 to 1, and
`PathToWithout 0 1 0` reports true. -/
theorem C10_witness : PathToWithout gNoEdges 0 1 0 = true :=
  C10_pathToWithout_vacuous gNoEdges 0 1 0 (by decide)

lemma modifyNode_getElem? :
    ∀ (ns : List Node) (i : Nat) (f : Node → Node) (j : Nat),
      (modifyNode ns i f)[j]? = if j = i then (ns[j]?).map f else ns[j]? := by
  intro ns
  induction ns with
  | nil => intro i f j; simp [modifyNode]
  | cons nd rest ih =>
    intro i f j
    cases i with
    | zero =>
      cases j with
      | zero => simp [modifyNode]
      | succ j => simp [modifyNode]
    | succ i =>
      cases j with
      | zero => simp [modifyNode]
      | succ j => simpa [modifyNode] using ih i f j

lemma modifyNode_length : ∀ (ns : List Node) (i : Nat) (f : Node → Node),
    (modifyNode ns i f).length = ns.length := by
  intro ns
  induction ns with
  | nil => intro i f; rfl
  | cons nd rest ih =>
    intro i f
    cases i with
    | zero => rfl
    | succ i => simpa [modifyNode] using ih i f

/-- C5: for distinct nodes `a ≠ b`, `AddEdge(a, b)` appends exactly one
record `{b, Out}` to a's adjacency list and exactly one record `{a, In}`
to b's; nothing else about either node changes (the node records are
otherwise identical), every other node is untouched, and the arena keeps
its size.  The operation is a total function — it has no failure mode. -/
theorem C5_addEdge_frame (g : Graph) (a b : NodeId) (hab : a ≠ b) :
    (AddEdge g a b).nodes[a]? =
      (g.nodes[a]?).map (fun nd => { nd with edges := nd.edges ++ [⟨b, Out⟩] }) ∧
    (AddEdge g a b).nodes[b]? =
      (g.nodes[b]?).map (fun nd => { nd with edges := nd.edges ++ [⟨a, In⟩] }) ∧
    (∀ c, c ≠ a → c ≠ b → (AddEdge g a b).nodes[c]? = g.nodes[c]?) ∧
    (AddEdge g a b).nodes.length = g.nodes.length := by
  have hrepr : (AddEdge g a b).nodes =
      modifyNode (modifyNode g.nodes a (fun nd => { nd with edges := nd.edges ++ [⟨b, Out⟩] }))
        b (fun nd => { nd with edges := nd.edges ++ [⟨a, In⟩] }) := rfl
  refine ⟨?_, ?_, ?_, ?_⟩
  · rw [hrepr, modifyNode_getElem?, if_neg hab, modifyNode_getElem?, if_pos rfl]
  · rw [hrepr, modifyNode_getElem?, if_pos rfl, modifyNode_getElem?, if_neg (Ne.symm hab)]
  · intro c hca hcb
    rw [hrepr, modifyNode_getElem?, if_neg hcb, modifyNode_getElem?, if_neg hca]
  · rw [hrepr, modifyNode_length, modifyNode_length]

/-- C5 witness: the frame theorem applied to a concrete two-node graph. -/
theorem C5_witness : (AddEdge (mkGraph ["a", "b"]) 0 1).nodes.length =
    (mkGraph ["a", "b"]).nodes.length :=
  (C5_addEdge_frame (mkGraph ["a", "b"]) 0 1 (by decide)).2.2.2

/-- C3 counterexample: in the fan-out graph a→b, a→c with a callback that
returns the stop value at b (its second invocation), the traversal still
invokes the callback a third time, on c — the invocation log is
[a, b, c], not [a, b], so traversal does not halt after a stop. -/
theorem C3_counterexample :
    (stopAtB () 1).2 = false ∧
    (visitWithTerminator gC3 Out (logFn stopAtB) gC3.fuel 0 [] ([], ())).2.1 = [0, 1, 2] := by
  constructor
  · decide
  · decide

/-- C3 (amended): when the callback returns the stop value at an
unvisited node, the engine call on that node returns at once: the node is
marked visited, its invocation is appended to the log — every invocation
already made is preserved (no rollback) — and none of the node's edges
are explored from this call.  (Traversal as a whole need not halt:
pending sibling edges of already-visited ancestors may still produce
further invocations, as the counterexample shows.) -/
theorem C3_stop_halts_descent {σ : Type _} (g : Graph) (dir : EdgeDirection)
    (fn : σ → NodeId → σ × Bool) (root : NodeId) (record log : List NodeId) (s s' : σ)
    (hvis : root ∉ record) (hstop : fn s root = (s', false)) :
    visitWithTerminator g dir (logFn fn) g.fuel root record (log, s) =
      (root :: record, (log ++ [root], s')) := by
  obtain ⟨m, hm⟩ : ∃ m, g.fuel = m + 1 :=
    ⟨g.nodes.length + (g.nodes.map (fun nd => nd.edges.length)).sum, rfl⟩
  rw [hm]
  exact visitWT_succ_halt hvis (by simp [logFn, hstop])

/-- C3 witness: the amendment instantiated at a one-node graph with an
always-stop callback. -/
theorem C3_witness :
    visitWithTerminator (mkGraph ["a"]) Out
      (logFn (fun (u : Unit) (_ : NodeId) => (u, false))) (mkGraph ["a"]).fuel 0 [] ([], ()) =
    ([0], ([0], ())) :=
  C3_stop_halts_descent (mkGraph ["a"]) Out (fun u _ => (u, false)) 0 [] [] () ()
    (by decide) rfl

/-- Log invariant for the edge loop: given that each recursive visit only
grows the record, appends a duplicate-free batch of fresh (previously
unrecorded, now recorded) ids to the log, the loop does too. -/
lemma loop_log_inv {σ : Type _} (dir : EdgeDirection)
    (visit : NodeId → List NodeId → (List NodeId × σ) → List NodeId × (List NodeId × σ))
    (hv : ∀ (t : NodeId) (record log : List NodeId) (s : σ), ∃ pre Δ s',
      visit t record (log, s) = (pre ++ record, (log ++ Δ, s')) ∧ Δ.Nodup ∧
      ∀ x ∈ Δ, x ∉ record ∧ x ∈ pre ++ record) :
    ∀ (es : List Edge) (record log : List NodeId) (s : σ), ∃ pre Δ s',
      visitEdgesLoop dir visit es record (log, s) = (pre ++ record, (log ++ Δ, s')) ∧
      Δ.Nodup ∧ ∀ x ∈ Δ, x ∉ record ∧ x ∈ pre ++ record := by
  intro es
  induction es with
  | nil =>
    intro record log s
    exact ⟨[], [], s, by simp [loop_nil], List.nodup_nil, by simp⟩
  | cons e rest ih =>
    intro record log s
    by_cases hf : followEdge dir e = true
    · obtain ⟨pre₁, Δ₁, s₁, h₁, hnd₁, hm₁⟩ := hv e.target record log s
      obtain ⟨pre₂, Δ₂, s₂, h₂, hnd₂, hm₂⟩ := ih (pre₁ ++ record) (log ++ Δ₁) s₁
      refine ⟨pre₂ ++ pre₁, Δ₁ ++ Δ₂, s₂, ?_, ?_, ?_⟩
      · rw [loop_cons_follow hf, h₁]
        show visitEdgesLoop dir visit rest (pre₁ ++ record) (log ++ Δ₁, s₁) = _
        rw [h₂]
        simp [List.append_assoc]
      · rw [List.nodup_append]
        exact ⟨hnd₁, hnd₂, fun x hx₁ hx₂ => (hm₂ x hx₂).1 (hm₁ x hx₁).2⟩
      · intro x hx
        rcases List.mem_append.mp hx with hx₁ | hx₂
        · obtain ⟨hnr, hin⟩ := hm₁ x hx₁
          refine ⟨hnr, ?_⟩
          have : x ∈ pre₂ ++ (pre₁ ++ record) := List.mem_append_right pre₂ hin
          simpa [List.append_assoc] using this
        · obtain ⟨hnr, hin⟩ := hm₂ x hx₂
          refine ⟨fun hxr => hnr (List.mem_append_right pre₁ hxr), ?_⟩
          simpa [List.append_assoc] using hin
    · have hf' : followEdge dir e = false := by simpa using hf
      simp only [loop_cons_skip hf']
      exact ih record log s

/-- Log invariant for the engine: the log entries added by a traversal
are duplicate-free, were unvisited before the call, and are visited after
it. -/
lemma visitWT_log_inv {σ : Type _} (g : Graph) (dir : EdgeDirection)
    (fn : σ → NodeId → σ × Bool) :
    ∀ (fuel : Nat) (root : NodeId) (record log : List NodeId) (s : σ), ∃ pre Δ s',
      visitWithTerminator g dir (logFn fn) fuel root record (log, s) =
        (pre ++ record, (log ++ Δ, s')) ∧
      Δ.Nodup ∧ ∀ x ∈ Δ, x ∉ record ∧ x ∈ pre ++ record := by
  intro fuel
  induction fuel with
  | zero =>
    intro root record log s
    exact ⟨[], [], s, by simp [visitWT_zero], List.nodup_nil, by simp⟩
  | succ fuel ih =>
    intro root record log s
    by_cases hvis : root ∈ record
    · exact ⟨[], [], s, by simp [visitWT_succ_visited hvis], List.nodup_nil, by simp⟩
    · rcases hr : fn s root with ⟨s₁, cont⟩
      cases cont
      · have hfn : logFn fn (log, s) root = ((log ++ [root], s₁), false) := by
          simp [logFn, hr]
        refine ⟨[root], [root], s₁, ?_, List.nodup_singleton root, ?_⟩
        · rw [visitWT_succ_halt hvis hfn]
          simp
        · intro x hx
          rw [List.mem_singleton] at hx; subst hx
          exact ⟨hvis, by simp⟩
      · have hlog : logFn fn (log, s) root = ((log ++ [root], s₁), true) := by
          simp [logFn, hr]
        obtain ⟨pre₂, Δ₂, s₂, h₂, hnd₂, hm₂⟩ :=
          loop_log_inv dir (fun t rec2 s2 => visitWithTerminator g dir (logFn fn) fuel t rec2 s2)
            (fun t rec2 log2 s2 => ih t rec2 log2 s2)
            (g.edgesOf root) (root :: record) (log ++ [root]) s₁
        refine ⟨pre₂ ++ [root], root :: Δ₂, s₂, ?_, ?_, ?_⟩
        · rw [visitWT_succ_go hvis hlog, h₂]
          simp [List.append_assoc]
        · rw [List.nodup_cons]
          exact ⟨fun hmem => (hm₂ root hmem).1 (List.mem_cons_self root record), hnd₂⟩
        · intro x hx
          rcases List.mem_cons.mp hx with rfl | hx₂
          · exact ⟨hvis, by simp⟩
          · obtain ⟨hn₂, hi₂⟩ := hm₂ x hx₂
            refine ⟨fun hxr => hn₂ (List.mem_cons_of_mem root hxr), ?_⟩
            simpa [List.append_assoc] using hi₂

/-- The instrumented and plain edge loops agree on the visited record and
the callback state, given that the visits they run agree. -/
lemma loop_logFn_proj {σ : Type _} (dir : EdgeDirection)
    (visit₁ : NodeId → List NodeId → (List NodeId × σ) → List NodeId × (List NodeId × σ))
    (visit₂ : NodeId → List NodeId → σ → List NodeId × σ)
    (hv : ∀ (t : NodeId) (record log : List NodeId) (s : σ),
      (visit₁ t record (log, s)).1 = (visit₂ t record s).1 ∧
      (visit₁ t record (log, s)).2.2 = (visit₂ t record s).2) :
    ∀ (es : List Edge) (record log : List NodeId) (s : σ),
      (visitEdgesLoop dir visit₁ es record (log, s)).1 =
        (visitEdgesLoop dir visit₂ es record s).1 ∧
      (visitEdgesLoop dir visit₁ es record (log, s)).2.2 =
        (visitEdgesLoop dir visit₂ es record s).2 := by
  intro es
  induction es with
  | nil => intro record log s; exact ⟨rfl, rfl⟩
  | cons e rest ih =>
    intro record log s
    by_cases hf : followEdge dir e = true
    · rw [loop_cons_follow hf, loop_cons_follow hf]
      obtain ⟨h1, h2⟩ := hv e.target record log s
      have hpair : (visit₁ e.target record (log, s)).2 =
          ((visit₁ e.target record (log, s)).2.1, (visit₂ e.target record s).2) := by
        rw [← h2]
      rw [h1, hpair]
      exact ih (visit₂ e.target record s).1 (visit₁ e.target record (log, s)).2.1
        (visit₂ e.target record s).2
    · have hf' : followEdge dir e = false := by simpa using hf
      rw [loop_cons_skip hf', loop_cons_skip hf']
      exact ih record log s

/-- Instrumentation is an observer: running the engine with `logFn fn`
yields the same visited record and the same callback state as running it
with `fn` — the log changes nothing about the traversal. -/
lemma visitWT_logFn_proj {σ : Type _} (g : Graph) (dir : EdgeDirection)
    (fn : σ → NodeId → σ × Bool) :
    ∀ (fuel : Nat) (root : NodeId) (record log : List NodeId) (s : σ),
      (visitWithTerminator g dir (logFn fn) fuel root record (log, s)).1 =
        (visitWithTerminator g dir fn fuel root record s).1 ∧
      (visitWithTerminator g dir (logFn fn) fuel root record (log, s)).2.2 =
        (visitWithTerminator g dir fn fuel root record s).2 := by
  intro fuel
  induction fuel with
  | zero => intro root record log s; exact ⟨rfl, rfl⟩
  | succ fuel ih =>
    intro root record log s
    by_cases hvis : root ∈ record
    · rw [visitWT_succ_visited hvis, visitWT_succ_visited hvis]
      exact ⟨rfl, rfl⟩
    · rcases hr : fn s root with ⟨s₁, cont⟩
      cases cont
      · have hfn : logFn fn (log, s) root = ((log ++ [root], s₁), false) := by
          simp [logFn, hr]
        rw [visitWT_succ_halt hvis hfn, visitWT_succ_halt hvis hr]
        exact ⟨rfl, rfl⟩
      · have hfn : logFn fn (log, s) root = ((log ++ [root], s₁), true) := by
          simp [logFn, hr]
        rw [visitWT_succ_go hvis hfn, visitWT_succ_go hvis hr]
        exact loop_logFn_proj dir
          (fun t rec2 st2 => visitWithTerminator g dir (logFn fn) fuel t rec2 st2)
          (fun t rec2 s2 => visitWithTerminator g dir fn fuel t rec2 s2)
          (fun t rec2 log2 s2 => ih t rec2 log2 s2)
          (g.edgesOf root) (root :: record) (log ++ [root]) s₁

/-- C4: in any single traversal of the engine — any graph, any root, any
direction selector, any callback — the instrumented invocation log is
duplicate-free: the callback runs at most once per node (node identity =
arena id). `Visit`, `VisitAll`, `PathTo`, and the walks inside
`FindBridges`/`FindCliques` are all such single engine calls. -/
theorem C4_callback_at_most_once {σ : Type _} (g : Graph) (dir : EdgeDirection)
    (fn : σ → NodeId → σ × Bool) (root : NodeId) (s : σ) :
    ((visitWithTerminator g dir (logFn fn) g.fuel root [] ([], s)).2.1).Nodup := by
  obtain ⟨pre, Δ, s', h, hnd, -⟩ := visitWT_log_inv g dir fn g.fuel root [] [] s
  rw [h]
  simpa using hnd

/-- In the Out direction the engine follows exactly the edges tagged Out or Both. -/
lemma followEdge_out (e : Edge) :
    followEdge Out e = (e.direction == Out || e.direction == Both) := rfl

/-- State-invariant preservation through the edge loop. -/
lemma loop_preserve {σ : Type _} (P : σ → Prop) (dir : EdgeDirection)
    (visit : NodeId → List NodeId → σ → List NodeId × σ)
    (hv : ∀ t record s, P s → P (visit t record s).2) :
    ∀ (es : List Edge) (record : List NodeId) (s : σ),
      P s → P (visitEdgesLoop dir visit es record s).2 := by
  intro es
  induction es with
  | nil => intro record s h; rw [loop_nil]; exact h
  | cons e rest ih =>
    intro record s h
    by_cases hf : followEdge dir e = true
    · rw [loop_cons_follow hf]; exact ih _ _ (hv _ _ _ h)
    · have hf' : followEdge dir e = false := by simpa using hf
      rw [loop_cons_skip hf']; exact ih _ _ h

/-- State-invariant preservation through the engine: if the callback
preserves `P` then so does any traversal. -/
lemma visitWT_preserve {σ : Type _} (P : σ → Prop) (g : Graph) (dir : EdgeDirection)
    (fn : σ → NodeId → σ × Bool) (hfn : ∀ s n, P s → P (fn s n).1) :
    ∀ (fuel : Nat) (root : NodeId) (record : List NodeId) (s : σ),
      P s → P (visitWithTerminator g dir fn fuel root record s).2 := by
  intro fuel
  induction fuel with
  | zero => intro root record s h; rw [visitWT_zero]; exact h
  | succ fuel ih =>
    intro root record s h
    by_cases hvis : root ∈ record
    · rw [visitWT_succ_visited hvis]; exact h
    · have h1 : P (fn s root).1 := hfn s root h
      rcases hr : fn s root with ⟨s₁, cont⟩
      rw [hr] at h1
      cases cont
      · rw [visitWT_succ_halt hvis hr]; exact h1
      · rw [visitWT_succ_go hvis hr]
        exact loop_preserve P dir _ (fun t r2 s2 => ih t r2 s2) _ _ _ h1

/-- PathTo's closure keeps the captured path non-empty once `hasPath` is set. -/
lemma fnPathTo_nonempty (g : Graph) (endN : NodeId) :
    ∀ (st : Bool × List NodeId) (n : NodeId),
      (st.1 = true → st.2 ≠ []) →
      ((fnPathTo g endN st n).1.1 = true → (fnPathTo g endN st n).1.2 ≠ []) := by
  intro st n h
  rcases st with ⟨b, p⟩
  cases b with
  | true => simpa [fnPathTo] using h
  | false =>
    cases hf : (g.edgesOf n).find? (fun e => isTerminalHopDir e.direction && e.target == endN) with
    | none => simp [fnPathTo, hf]
    | some e => simp [fnPathTo, hf]

/-- A returned (non-`nil`) path is never the empty sequence. -/
lemma pathTo_some_ne_nil {g : Graph} {n endN : NodeId} {p : List NodeId}
    (h : PathTo g n endN = some p) : p ≠ [] := by
  have hP := visitWT_preserve (fun st => st.1 = true → st.2 ≠ []) g Out (fnPathTo g endN)
    (fnPathTo_nonempty g endN) g.fuel n [] (false, []) (by simp)
  revert h hP
  unfold PathTo
  cases hb : (visitWithTerminator g Out (fnPathTo g endN) g.fuel n [] (false, [])).2.1 with
  | false => intro h; simp [hb] at h
  | true =>
    intro h hP
    simp only [hb, if_true] at h
    obtain rfl : (visitWithTerminator g Out (fnPathTo g endN) g.fuel n [] (false, [])).2.2 = p :=
      Option.some.inj h
    exact hP hb

/-- If the edge loop flips `hasPath` from false to true, some followed
(Out/Both) edge's recursive visit did, and — given soundness of the
recursive visits — its target Out-reaches a node with a terminal hop. -/
lemma loop_flip (g : Graph) (endN : NodeId)
    (visit : NodeId → List NodeId → (Bool × List NodeId) → List NodeId × (Bool × List NodeId))
    (hv : ∀ (t : NodeId) (record : List NodeId) (st : Bool × List NodeId),
      st.1 = false → ((visit t record st).2).1 = true →
      ∃ u, OutReach g t u ∧ TerminalHop g u endN) :
    ∀ (es : List Edge) (record : List NodeId) (st : Bool × List NodeId),
      st.1 = false → ((visitEdgesLoop Out visit es record st).2).1 = true →
      ∃ ed ∈ es, (ed.direction = Out ∨ ed.direction = Both) ∧
        ∃ u, OutReach g ed.target u ∧ TerminalHop g u endN := by
  intro es
  induction es with
  | nil =>
    intro record st h0 h1
    rw [loop_nil] at h1
    simp [h0] at h1
  | cons e rest ih =>
    intro es_record st h0 h1
    by_cases hf : followEdge Out e = true
    · rw [loop_cons_follow hf] at h1
      cases hb : ((visit e.target es_record st).2).1 with
      | false =>
        obtain ⟨ed, hmem, hdir, hw⟩ := ih _ _ hb h1
        exact ⟨ed, List.mem_cons_of_mem e hmem, hdir, hw⟩
      | true =>
        obtain ⟨u, hru, htu⟩ := hv e.target es_record st h0 hb
        have hdir : e.direction = Out ∨ e.direction = Both := by
          rw [followEdge_out] at hf
          simpa using hf
        exact ⟨e, List.mem_cons_self e rest, hdir, u, hru, htu⟩
    · have hf' : followEdge Out e = false := by simpa using hf
      rw [loop_cons_skip hf'] at h1
      obtain ⟨ed, hmem, hdir, hw⟩ := ih _ _ h0 h1
      exact ⟨ed, List.mem_cons_of_mem e hmem, hdir, hw⟩

/-- Soundness of `PathTo`'s traversal: if `hasPath` flips to true during
an Out-direction walk rooted at `root`, then some node Out-reachable from
`root` has a terminal hop to `endN`. -/
lemma visitWT_flip (g : Graph) (endN : NodeId) :
    ∀ (fuel : Nat) (root : NodeId) (record : List NodeId) (st : Bool × List NodeId),
      st.1 = false →
      ((visitWithTerminator g Out (fnPathTo g endN) fuel root record st).2).1 = true →
      ∃ u, OutReach g root u ∧ TerminalHop g u endN := by
  intro fuel
  induction fuel with
  | zero =>
    intro root record st h0 h1
    rw [visitWT_zero] at h1
    simp [h0] at h1
  | succ fuel ih =>
    intro root record st h0 h1
    by_cases hvis : root ∈ record
    · rw [visitWT_succ_visited hvis] at h1
      simp [h0] at h1
    · rcases st with ⟨b, p⟩
      obtain rfl : b = false := h0
      cases hfind : (g.edgesOf root).find?
          (fun e => isTerminalHopDir e.direction && e.target == endN) with
      | some ed =>
        have hmem := List.mem_of_find?_eq_some hfind
        have hpred := List.find?_some hfind
        have hpred' : isTerminalHopDir ed.direction = true ∧ ed.target = endN := by
          simpa using hpred
        exact ⟨root, Relation.ReflTransGen.refl, ed, hmem, hpred'.2, hpred'.1⟩
      | none =>
        have hfn : fnPathTo g endN (false, p) root = ((false, p ++ [root]), true) := by
          simp [fnPathTo, hfind]
        rw [visitWT_succ_go hvis hfn] at h1
        obtain ⟨ed, hmem, hdir, u, hru, htu⟩ :=
          loop_flip g endN
            (fun t rec2 st2 => visitWithTerminator g Out (fnPathTo g endN) fuel t rec2 st2)
            (fun t rec2 st2 => ih t rec2 st2) (g.edgesOf root) (root :: record)
            (false, p ++ [root]) rfl h1
        exact ⟨u, Relation.ReflTransGen.head ⟨ed, hmem, rfl, hdir⟩ hru, htu⟩

/-- C2 counterexample: in the graph where n and e are joined only by a
None-tagged edge, no Out-reachable path from n to e exists (there is no
Out- or Both-tagged edge at all), yet `PathTo(n, e)` returns the
non-empty path [n, e]: the final-hop scan accepts the None-tagged edge. -/
theorem C2_counterexample :
    ¬ OutPathEx gC2 0 1 ∧ PathTo gC2 0 1 = some [0, 1] := by
  constructor
  · rintro ⟨u, -, e, he, -, hdir⟩
    have hd : e.direction = NoneDir := by
      have hedges : gC2.edgesOf u = [⟨1, NoneDir⟩] ∨ gC2.edgesOf u = [⟨0, NoneDir⟩] ∨
          gC2.edgesOf u = [] := by
        rcases u with - | - | u
        · exact Or.inl (by decide)
        · exact Or.inr (Or.inl (by decide))
        · exact Or.inr (Or.inr rfl)
      rcases hedges with h | h | h <;> rw [h] at he
      · rw [List.mem_singleton] at he; rw [he]
      · rw [List.mem_singleton] at he; rw [he]
      · exact absurd he (List.not_mem_nil e)
    rw [hd] at hdir
    rcases hdir with h | h <;> exact absurd h (by decide)
  · decide

/-- C2 (amended): `PathTo(start, end)` returns absent whenever no node
Out-reachable from `start` (via Out- or Both-tagged edges) has an edge
tagged with any named value other than In targeting `end` — the final hop
may use an Out, Both, None, or Unknown tag, not only Out; and
`HasPath(start, end)` is true exactly when `PathTo(start, end)` is
non-empty. -/
theorem C2_pathTo_reachability :
    (∀ (g : Graph) (s e : NodeId),
      ¬ (∃ u, OutReach g s u ∧ TerminalHop g u e) → PathTo g s e = none) ∧
    (∀ (g : Graph) (s e : NodeId),
      HasPath g s e = true ↔ ∃ p, PathTo g s e = some p ∧ p ≠ []) := by
  constructor
  · intro g s e h
    unfold PathTo
    cases hb : (visitWithTerminator g Out (fnPathTo g e) g.fuel s [] (false, [])).2.1 with
    | false => simp [hb]
    | true => exact absurd (visitWT_flip g e g.fuel s [] (false, []) rfl hb) h
  · intro g s e
    constructor
    · intro hh
      cases hP : PathTo g s e with
      | none => rw [HasPath, hP] at hh; simp at hh
      | some p => exact ⟨p, rfl, pathTo_some_ne_nil hP⟩
    · rintro ⟨p, hP, -⟩
      rw [HasPath, hP]
      rfl

/-- C2 witness: on the two-node edge-free graph nothing is Out-reachable
with a terminal hop to 1, so the amended theorem yields `PathTo 0 1 = none`. -/
theorem C2_witness : PathTo gNoEdges 0 1 = none := by
  refine C2_pathTo_reachability.1 gNoEdges 0 1 ?_
  rintro ⟨u, -, e, he, -, -⟩
  have hempty : gNoEdges.edgesOf u = [] := by
    rcases u with - | - | u
    · rfl
    · rfl
    · rfl
  rw [hempty] at he
  exact absurd he (List.not_mem_nil e)

end GoGraph
